import Mathlib

/-!
Verification development for the super_chizuko per-user tiered memory store.

The Python sources embedded here are:
- backend/memory_manager_v2.py   (MemoryManagerV2: add_memory,
  retrieve_relevant_memories, _prune_user_memory)
- backend/memory_manager.py      (legacy MemoryManager: Memory.is_expired,
  check_memory_relevance, clean_up_memory) and backend/config.py
- backend/memory_manager_wrapper.py (MemoryManagerWrapper: backend selection
  and the try/fallback plumbing around both stores)

The chroma vector index is an external capability.  It is modelled as a list
of (id, document, metadata) entries kept in insertion order; a similarity
query is modelled by passing the candidate list (ids, documents, metadatas
and cosine distances as the index would return them) as an argument.
Python floats are modelled as rationals, epoch timestamps as integers.
-/

namespace SuperChizuko

/-- Metadata stored with every v2 record, exactly the dictionary written by
MemoryManagerV2.add_memory: user_id, memory_type, tags, importance,
created_at, last_access.  add_memory always populates importance, so the
`.get("importance", 0.3)` fallbacks in the source never fire for entries of
this store and importance is modelled as a plain field. -/
structure MemMeta where
  user_id : String
  memory_type : String
  tags : List String
  importance : ℚ
  created_at : ℤ
  last_access : ℤ
deriving DecidableEq

/-- One stored item of the chroma collection: id, document, metadata.
The embedding vector is owned by the index and plays no role in the
embedded logic. -/
structure Entry where
  id : String
  doc : String
  meta : MemMeta
deriving DecidableEq

/-- The chroma collection, in insertion order. -/
abbrev Store := List Entry

/-- Construction parameters of MemoryManagerV2 (defaults 500 / 1800 / 600). -/
structure Cfg where
  max_items_per_user : ℕ
  short_term_expire_sec : ℤ
  history_expire_sec : ℤ
deriving DecidableEq

/-- collection.get(where={"user_id": user_id}): all entries of one owner,
in index-return order. -/
def getWhere (user_id : String) (s : Store) : List Entry :=
  s.filter (fun e => e.meta.user_id = user_id)

/-- collection.delete(ids=[mid]): remove the entry with the given id. -/
def deleteId (mid : String) (s : Store) : Store :=
  s.filter (fun e => e.id ≠ mid)

/-- collection.update(ids=[mid], metadatas=[m]): replace the metadata of the
entry with the given id, leaving id and document untouched. -/
def updateMeta (mid : String) (m : MemMeta) (s : Store) : Store :=
  s.map (fun e => if e.id = mid then { e with meta := m } else e)

namespace MemoryManagerV2

/-- Rule 1 of _prune_user_memory for one record: a shortterm record whose
age exceeds short_term_expire_sec, or (elif) a history record whose age
exceeds history_expire_sec, is marked for deletion.  longterm and profile
records never match. -/
def isTimeExpired (cfg : Cfg) (now : ℤ) (m : MemMeta) : Bool :=
  if m.memory_type = "shortterm" then decide (now - m.created_at > cfg.short_term_expire_sec)
  else if m.memory_type = "history" then decide (now - m.created_at > cfg.history_expire_sec)
  else false

/-- The ids collected by the rule-1 loop of _prune_user_memory, in the order
the loop appends them. -/
def expiredIds (cfg : Cfg) (now : ℤ) (items : List Entry) : List String :=
  (items.filter (fun e => isTimeExpired cfg now e.meta)).map (·.id)

/-- The comparison key of the rule-2 sort: survivors.sort(key=importance).
Python's sort is stable; List.insertionSort with this total relation
produces the identical (unique) stable ascending order. -/
abbrev impLE : Entry → Entry → Prop := fun a b => a.meta.importance ≤ b.meta.importance

/-- Records of one owner that survive rule 1 of _prune_user_memory:
the entries whose id was not collected by the expiry loop. -/
def pruneSurvivors (cfg : Cfg) (now : ℤ) (items : List Entry) : List Entry :=
  items.filter (fun e => e.id ∉ expiredIds cfg now items)

/-- Rule 2 of _prune_user_memory: sort the rule-1 survivors ascending by
importance and take the ids of the lowest-importance excess, i.e. of the
first (len(survivors) - max_items_per_user) sorted survivors. -/
def capacityEvictIds (cfg : Cfg) (now : ℤ) (items : List Entry) : List String :=
  let sorted := (pruneSurvivors cfg now items).insertionSort impLE
  (sorted.take (sorted.length - cfg.max_items_per_user)).map (·.id)

/-- The complete to_delete list a pruning pass builds from the owner's
items: rule-1 expired ids, then, if len(ids) - len(to_delete) still exceeds
max_items_per_user, the ids of the lowest-importance excess survivors. -/
def pruneDeleteIds (cfg : Cfg) (now : ℤ) (items : List Entry) : List String :=
  let toDelete1 := expiredIds cfg now items
  if items.length - toDelete1.length > cfg.max_items_per_user then
    toDelete1 ++ capacityEvictIds cfg now items
  else toDelete1

/-- MemoryManagerV2._prune_user_memory: load the owner's records, build the
to_delete list, delete each marked id. -/
def prune_user_memory (cfg : Cfg) (now : ℤ) (user_id : String) (s : Store) : Store :=
  let items := getWhere user_id s
  if items.isEmpty then s
  else (pruneDeleteIds cfg now items).foldl (fun st mid => deleteId mid st) s

/-- MemoryManagerV2.add_memory: compute the record id from owner, timestamp
and a content fingerprint (the Python builtin hash is an external function,
passed in as hashC), append the record to the collection, run the pruning
pass for that owner, and return the id.  Returns the id together with the
resulting store. -/
def add_memory (hashC : String → ℕ) (cfg : Cfg) (now : ℤ) (user_id content : String)
    (memory_type : String := "history") (tags : List String := [])
    (importance : ℚ := 3/10) (s : Store) : String × Store :=
  let memory_id := user_id ++ "_" ++ toString now ++ "_" ++ toString (hashC content)
  let s1 := s ++ [⟨memory_id, content, ⟨user_id, memory_type, tags, importance, now, now⟩⟩]
  (memory_id, prune_user_memory cfg now user_id s1)

/-- One candidate row of the collection.query result: id, document,
metadata and cosine distance, in index-return order. -/
structure Candidate where
  id : String
  doc : String
  meta : MemMeta
  dist : ℚ
deriving DecidableEq

/-- One element of the list retrieve_relevant_memories returns:
the processed dict {"id", "content", "metadata", "score"}. -/
structure RetRecord where
  id : String
  content : String
  metadata : MemMeta
  score : ℚ
deriving DecidableEq

/-- The weighted score of one candidate, computed exactly as the loop body
does: sim * 0.7 + recency * 0.2 + importance * 0.1, where
sim = 1 - dist and recency = 1.0 - min(1.0, (now - last_access) / 86400). -/
def weightedScore (now : ℤ) (meta : MemMeta) (dist : ℚ) : ℚ :=
  (1 - dist) * (7/10)
    + (1 - min 1 (((now - meta.last_access : ℤ) : ℚ) / 86400)) * (2/10)
    + meta.importance * (1/10)

/-- The record the loop appends for one candidate.  The score is computed
from the candidate's metadata as returned by the query (pre-bump
last_access), but the appended dict holds the same metadata object that the
next line mutates with last_access = now, so the returned metadata carries
the bumped value. -/
def procRecord (now : ℤ) (c : Candidate) : RetRecord :=
  ⟨c.id, c.doc, { c.meta with last_access := now }, weightedScore now c.meta c.dist⟩

/-- The candidate loop of retrieve_relevant_memories: for each candidate in
query order, append its processed record and persist its bumped metadata
with collection.update. -/
def processCands (now : ℤ) : List Candidate → Store → List RetRecord × Store
  | [], s => ([], s)
  | c :: cs, s =>
    let r := processCands now cs (updateMeta c.id { c.meta with last_access := now } s)
    (procRecord now c :: r.1, r.2)

/-- processed.sort(key=score, reverse=True): Python's stable descending
sort, realised by List.insertionSort with the total relation
"score of the left argument is at least the score of the right one"
(the unique stable descending order; stability is proved below). -/
def sortDesc (l : List RetRecord) : List RetRecord :=
  l.insertionSort (fun a b => b.score ≤ a.score)

instance : IsTotal Entry impLE :=
  ⟨fun a b => le_total a.meta.importance b.meta.importance⟩

instance : IsTrans Entry impLE :=
  ⟨fun _ _ _ hab hbc => le_trans hab hbc⟩

instance : IsTotal RetRecord (fun a b => b.score ≤ a.score) :=
  ⟨fun a b => (le_total a.score b.score).symm⟩

instance : IsTrans RetRecord (fun a b => b.score ≤ a.score) :=
  ⟨fun _ _ _ hab hbc => le_trans hbc hab⟩

/-- MemoryManagerV2.retrieve_relevant_memories: the similarity query is the
external index capability, so its result rows (scoped to user_id, up to
limit * 3 of them) are the qcands argument.  If the query returned nothing,
return [] without touching the store; otherwise process every candidate
(computing scores and persisting the last_access bump), sort descending by
score and return the top limit together with the resulting store. -/
def retrieve_relevant_memories (now : ℤ) (user_id : String) (qcands : List Candidate)
    (limit : ℕ) (s : Store) : List RetRecord × Store :=
  if qcands.isEmpty then ([], s)
  else
    let r := processCands now qcands s
    ((sortDesc r.1).take limit, r.2)

end MemoryManagerV2

/-! ## Legacy store (backend/memory_manager.py, backend/config.py) -/

namespace Config

/-- Config.MEMORY_EXPIRY_TIME = 30 * 24 * 60 * 60 (30 days, in seconds). -/
def MEMORY_EXPIRY_TIME : ℤ := 30 * 24 * 60 * 60

end Config

/-- The legacy Memory class: id, content, timestamp and the mood state label
captured when the record was stored.  time.time() values are rationals. -/
structure Memory where
  memory_id : String
  content : String
  timestamp : ℚ
  state : String
deriving DecidableEq

/-- Python substring containment, "pat in s", on the character lists. -/
def strContains (s pat : String) : Prop :=
  pat.toList <:+: s.toList

instance (s pat : String) : Decidable (strContains s pat) :=
  List.decidableInfix pat.toList s.toList

/-- Memory.is_expired: time.time() - timestamp > Config.MEMORY_EXPIRY_TIME. -/
def Memory.is_expired (nowT : ℚ) (m : Memory) : Bool :=
  decide (nowT - m.timestamp > (Config.MEMORY_EXPIRY_TIME : ℚ))

namespace MemoryManager

/-- MemoryManager.check_memory_relevance: discard an expired record, then a
record whose content contains either fixed negative-sentiment marker, then a
record whose stored state label differs from the state passed in; keep
everything else. -/
def check_memory_relevance (nowT : ℚ) (memory : Memory) (current_state : String) : Bool :=
  if memory.is_expired nowT then false
  else if strContains memory.content "失望" ∨ strContains memory.content "生气" then false
  else if memory.state ≠ current_state then false
  else true

/-- MemoryManager.clean_up_memory: walk every stored record and delete each
one check_memory_relevance rejects, with current_state fixed to "idle";
the records it keeps are exactly the accepted ones. -/
def clean_up_memory (nowT : ℚ) (mems : List Memory) : List Memory :=
  mems.filter (fun m => check_memory_relevance nowT m "idle")

end MemoryManager

/-! ## Resilience wrapper (backend/memory_manager_wrapper.py)

The two backends are external to the wrapper logic: each operation a
backend exposes is modelled by the Except value the call would produce
(ok result, or error for a raised exception).  An Option around an
operation models a hasattr probe failing (the method being absent);
an Option around a whole backend models the backend being absent
(construction or loading failed).  MemoryManagerV2 declares add_memory,
retrieve_relevant_memories and clear_user_memory directly, so only its
delete_memory is guarded by hasattr in the wrapper source. -/

/-- The advanced (v2) backend as the wrapper observes it. -/
structure V2Ops where
  add_memory : Except String String
  retrieve_relevant_memories : Except String (List MemoryManagerV2.RetRecord)
  clear_user_memory : Except String Bool
  delete_memory : Option (Except String Bool)

/-- The legacy (v1) backend as the wrapper observes it: every operation is
looked up with hasattr before being called, both on the instance and on the
dynamically loaded module. -/
structure V1Ops where
  add_memory : Option (Except String (Option String))
  retrieve_relevant_memories : Option (Except String (List MemoryManagerV2.RetRecord))
  clear_user_memory : Option (Except String Bool)
  delete_memory : Option (Except String Bool)

/-- Wrapper state: the optional v2 instance, the optional v1 instance and
the optional v1 module, plus the two manual override flags. -/
structure Wrapper where
  v2 : Option V2Ops
  v1 : Option V1Ops
  v1_mod : Option V1Ops
  force_v1 : Bool
  force_v2 : Bool

namespace MemoryManagerWrapper

/-- MemoryManagerWrapper._use_v2: force_v1 wins, then force_v2, then
"v2 is present". -/
def use_v2 (w : Wrapper) : Bool :=
  if w.force_v1 then false
  else if w.force_v2 then true
  else w.v2.isSome

/-- MemoryManagerWrapper.force_use_v1: set force_v1; enabling it clears
force_v2. -/
def force_use_v1 (w : Wrapper) (enable : Bool) : Wrapper :=
  { w with force_v1 := enable, force_v2 := if enable then false else w.force_v2 }

/-- MemoryManagerWrapper.force_use_v2: set force_v2; enabling it clears
force_v1. -/
def force_use_v2 (w : Wrapper) (enable : Bool) : Wrapper :=
  { w with force_v2 := enable, force_v1 := if enable then false else w.force_v1 }

/-- The module-level half of the v1 fallback block of add_memory: call the
module function if the module is loaded and exposes one; a raised exception
or a missing function yields None. -/
def add_memory_v1mod (w : Wrapper) : Option String :=
  match w.v1_mod with
  | some m =>
    match m.add_memory with
    | some (Except.ok v) => v
    | some (Except.error _) => none
    | none => none
  | none => none

/-- The v1 fallback block of add_memory: prefer the instance when it exposes
add_memory (an exception there is caught and yields None, without consulting
the module), otherwise fall through to the module function. -/
def add_memory_v1 (w : Wrapper) : Option String :=
  match w.v1 with
  | some b =>
    match b.add_memory with
    | some (Except.ok v) => v
    | some (Except.error _) => none
    | none => add_memory_v1mod w
  | none => add_memory_v1mod w

/-- MemoryManagerWrapper.add_memory: try v2 when selected (a raised
exception, or v2 being None, falls through to the v1 block), else run the
v1 block; the neutral result is None. -/
def add_memory (w : Wrapper) : Option String :=
  if use_v2 w then
    match w.v2 with
    | some b =>
      match b.add_memory with
      | Except.ok v => some v
      | Except.error _ => add_memory_v1 w
    | none => add_memory_v1 w
  else add_memory_v1 w

/-- The module-level half of the v1 fallback block of
retrieve_relevant_memories. -/
def retrieve_v1mod (w : Wrapper) : List MemoryManagerV2.RetRecord :=
  match w.v1_mod with
  | some m =>
    match m.retrieve_relevant_memories with
    | some (Except.ok v) => v
    | some (Except.error _) => []
    | none => []
  | none => []

/-- The v1 fallback block of retrieve_relevant_memories. -/
def retrieve_v1 (w : Wrapper) : List MemoryManagerV2.RetRecord :=
  match w.v1 with
  | some b =>
    match b.retrieve_relevant_memories with
    | some (Except.ok v) => v
    | some (Except.error _) => []
    | none => retrieve_v1mod w
  | none => retrieve_v1mod w

/-- MemoryManagerWrapper.retrieve_relevant_memories: try v2 when selected,
fall back to the v1 block; the neutral result is the empty list. -/
def retrieve_relevant_memories (w : Wrapper) : List MemoryManagerV2.RetRecord :=
  if use_v2 w then
    match w.v2 with
    | some b =>
      match b.retrieve_relevant_memories with
      | Except.ok v => v
      | Except.error _ => retrieve_v1 w
    | none => retrieve_v1 w
  else retrieve_v1 w

/-- The module-level half of the v1 fallback block of clear_user_memory. -/
def clear_v1mod (w : Wrapper) : Bool :=
  match w.v1_mod with
  | some m =>
    match m.clear_user_memory with
    | some (Except.ok v) => v
    | some (Except.error _) => false
    | none => false
  | none => false

/-- The v1 fallback block of clear_user_memory. -/
def clear_v1 (w : Wrapper) : Bool :=
  match w.v1 with
  | some b =>
    match b.clear_user_memory with
    | some (Except.ok v) => v
    | some (Except.error _) => false
    | none => clear_v1mod w
  | none => clear_v1mod w

/-- MemoryManagerWrapper.clear_user_memory: try v2 when selected, fall back
to the v1 block; the neutral result is False. -/
def clear_user_memory (w : Wrapper) : Bool :=
  if use_v2 w then
    match w.v2 with
    | some b =>
      match b.clear_user_memory with
      | Except.ok v => v
      | Except.error _ => clear_v1 w
    | none => clear_v1 w
  else clear_v1 w

/-- The module-level half of the v1 fallback block of delete_memory. -/
def delete_v1mod (w : Wrapper) : Bool :=
  match w.v1_mod with
  | some m =>
    match m.delete_memory with
    | some (Except.ok v) => v
    | some (Except.error _) => false
    | none => false
  | none => false

/-- The v1 fallback block of delete_memory. -/
def delete_v1 (w : Wrapper) : Bool :=
  match w.v1 with
  | some b =>
    match b.delete_memory with
    | some (Except.ok v) => v
    | some (Except.error _) => false
    | none => delete_v1mod w
  | none => delete_v1mod w

/-- MemoryManagerWrapper.delete_memory: when v2 is selected, the call is
additionally guarded by hasattr(self._v2, "delete_memory"); a missing
method, an exception, or v2 being None all fall through to the v1 block;
the neutral result is False. -/
def delete_memory (w : Wrapper) : Bool :=
  if use_v2 w then
    match w.v2 with
    | some b =>
      match b.delete_memory with
      | some (Except.ok v) => v
      | some (Except.error _) => delete_v1 w
      | none => delete_v1 w
    | none => delete_v1 w
  else delete_v1 w

/-- Hypothesis shape for claim C3: the v2 call for an operation is down,
meaning v2 is absent or that call raises. -/
def V2Down {α : Type} (w : Wrapper) (sel : V2Ops → Except String α) : Prop :=
  w.v2 = none ∨ ∃ b err, w.v2 = some b ∧ sel b = Except.error err

/-- Hypothesis shape for claim C3 on the v1 side: wherever the v1 instance
or the v1 module is present, the selected operation is absent or raises. -/
def V1Down {α : Type} (w : Wrapper) (sel : V1Ops → Option (Except String α)) : Prop :=
  (∀ b, w.v1 = some b → sel b = none ∨ ∃ err, sel b = some (Except.error err))
  ∧ (∀ m, w.v1_mod = some m → sel m = none ∨ ∃ err, sel m = some (Except.error err))

/-- Hypothesis shape for claim C3 on v2 delete_memory: v2 absent, or its
delete_memory missing (hasattr false), or raising. -/
def V2DeleteDown (w : Wrapper) : Prop :=
  w.v2 = none ∨ ∃ b, w.v2 = some b ∧
    (b.delete_memory = none ∨ ∃ err, b.delete_memory = some (Except.error err))

end MemoryManagerWrapper

/-! ## Shared lemmas about the store primitives -/

theorem foldl_deleteId (L : List String) (s : Store) :
    L.foldl (fun st mid => deleteId mid st) s = s.filter (fun e => e.id ∉ L) := by
  induction L generalizing s with
  | nil => simp
  | cons a L ih =>
    simp only [List.foldl_cons]
    rw [ih, deleteId, List.filter_filter]
    refine List.filter_congr fun e _ => ?_
    by_cases h1 : e.id = a <;> by_cases h2 : e.id ∈ L <;> simp [h1, h2]

theorem getWhere_filter (uid : String) (p : Entry → Bool) (s : Store) :
    getWhere uid (s.filter p) = (getWhere uid s).filter p := by
  simp only [getWhere, List.filter_filter]
  exact List.filter_congr fun e _ => by rw [Bool.and_comm]

theorem mem_updateMeta_of_ne {mid : String} {m : MemMeta} {s : Store} {e : Entry}
    (he : e ∈ s) (hne : e.id ≠ mid) : e ∈ updateMeta mid m s := by
  rw [updateMeta]
  refine List.mem_map.mpr ⟨e, he, ?_⟩
  simp [hne]

namespace MemoryManagerV2

theorem mem_expiredIds {cfg : Cfg} {now : ℤ} {items : List Entry} {mid : String} :
    mid ∈ expiredIds cfg now items ↔
      ∃ e ∈ items, isTimeExpired cfg now e.meta ∧ e.id = mid := by
  simp only [expiredIds, List.mem_map, List.mem_filter]
  tauto

theorem length_expiredIds (cfg : Cfg) (now : ℤ) (items : List Entry) :
    (expiredIds cfg now items).length
      = items.countP (fun e => isTimeExpired cfg now e.meta) := by
  simp [expiredIds, List.countP_eq_length_filter]

theorem countP_add_countP_le_length {α : Type} (p q : α → Bool) (l : List α)
    (h : ∀ a ∈ l, ¬(p a = true ∧ q a = true)) :
    l.countP p + l.countP q ≤ l.length := by
  induction l with
  | nil => simp
  | cons a l ih =>
    have ha := h a (List.mem_cons_self a l)
    have ih2 := ih (fun b hb => h b (List.mem_cons_of_mem a hb))
    have hif : (if p a then 1 else 0) + (if q a then 1 else 0) ≤ 1 := by
      cases hp : p a
      · cases hq : q a <;> simp
      · cases hq : q a
        · simp
        · exact absurd ⟨hp, hq⟩ ha
    simp only [List.countP_cons, List.length_cons]
    omega

/-- After rule 1, the records whose ids escaped the expiry loop number at
most the item count minus the loop's marks. -/
theorem length_pruneSurvivors_le (cfg : Cfg) (now : ℤ) (items : List Entry) :
    (pruneSurvivors cfg now items).length + (expiredIds cfg now items).length
      ≤ items.length := by
  rw [length_expiredIds, pruneSurvivors, ← List.countP_eq_length_filter]
  refine countP_add_countP_le_length _ _ items fun e he hcon => ?_
  obtain ⟨h1, h2⟩ := hcon
  simp only [decide_eq_true_eq] at h1
  exact h1 (mem_expiredIds.mpr ⟨e, he, h2, rfl⟩)

/-- Core counting fact behind the capacity invariant: whatever the incoming
items are, the records whose ids escape the full to_delete list of a
pruning pass number at most max_items_per_user. -/
theorem length_filter_pruneDeleteIds_le (cfg : Cfg) (now : ℤ) (items : List Entry) :
    (items.filter (fun e => e.id ∉ pruneDeleteIds cfg now items)).length
      ≤ cfg.max_items_per_user := by
  by_cases hg : items.length - (expiredIds cfg now items).length > cfg.max_items_per_user
  · have hDd : pruneDeleteIds cfg now items
        = expiredIds cfg now items ++ capacityEvictIds cfg now items := by
      simp only [pruneDeleteIds]
      rw [if_pos hg]
    rw [hDd]
    have hsplitfilter : items.filter
          (fun e => e.id ∉ expiredIds cfg now items ++ capacityEvictIds cfg now items)
        = (pruneSurvivors cfg now items).filter
            (fun e => e.id ∉ capacityEvictIds cfg now items) := by
      rw [pruneSurvivors, List.filter_filter]
      refine List.filter_congr fun e _ => ?_
      by_cases h1 : e.id ∈ expiredIds cfg now items <;>
        by_cases h2 : e.id ∈ capacityEvictIds cfg now items <;>
          simp [h1, h2]
    rw [hsplitfilter, ← List.countP_eq_length_filter]
    rw [← List.Perm.countP_eq _
      (List.perm_insertionSort impLE (pruneSurvivors cfg now items))]
    set sorted := (pruneSurvivors cfg now items).insertionSort impLE with hsorted
    set k := sorted.length - cfg.max_items_per_user with hk
    have hcap : capacityEvictIds cfg now items = (sorted.take k).map (·.id) := rfl
    rw [hcap]
    set T := sorted.take k with hT
    set D := sorted.drop k with hD
    have hTD : sorted = T ++ D := (List.take_append_drop k sorted).symm
    rw [hTD, List.countP_append]
    have hzero : T.countP (fun e => decide (e.id ∉ T.map (·.id))) = 0 := by
      rw [List.countP_eq_zero]
      intro e he
      simp only [decide_eq_true_eq, Decidable.not_not]
      exact List.mem_map.mpr ⟨e, he, rfl⟩
    have hdropcount : D.countP (fun e => decide (e.id ∉ T.map (·.id))) ≤ D.length :=
      List.countP_le_length _
    have hDlen : D.length = sorted.length - k := by rw [hD, List.length_drop]
    omega
  · have hDd : pruneDeleteIds cfg now items = expiredIds cfg now items := by
      simp only [pruneDeleteIds]
      rw [if_neg hg]
    rw [hDd]
    have h1 := length_pruneSurvivors_le cfg now items
    rw [pruneSurvivors] at h1
    omega

/-- The pruned store restricted to the pruned owner is exactly the owner's
incoming items whose ids escaped the to_delete list (when the owner had any
items at all). -/
theorem getWhere_prune (cfg : Cfg) (now : ℤ) (uid : String) (s : Store)
    (hne : (getWhere uid s).isEmpty = false) :
    getWhere uid (prune_user_memory cfg now uid s)
      = (getWhere uid s).filter
          (fun e => e.id ∉ pruneDeleteIds cfg now (getWhere uid s)) := by
  rw [prune_user_memory]
  simp only [hne, Bool.false_eq_true, if_false]
  rw [foldl_deleteId, getWhere_filter]

/-- C1, capacity invariant: for every owner, every configuration and every
starting store (hence after any sequence of adds), when add_memory returns,
the number of records stored for that owner is at most max_items_per_user:
the pruning pass run at the end of each add restores the cap. -/
theorem add_memory_respects_cap (hashC : String → ℕ) (cfg : Cfg) (now : ℤ)
    (user_id content memory_type : String) (tags : List String)
    (importance : ℚ) (s : Store) :
    (getWhere user_id
        (add_memory hashC cfg now user_id content memory_type tags importance s).2).length
      ≤ cfg.max_items_per_user := by
  rw [add_memory]
  set newE : Entry :=
    ⟨user_id ++ "_" ++ toString now ++ "_" ++ toString (hashC content), content,
      ⟨user_id, memory_type, tags, importance, now, now⟩⟩ with hnew
  set s1 := s ++ [newE] with hs1
  have hmem : newE ∈ getWhere user_id s1 := by
    rw [getWhere, List.mem_filter]
    exact ⟨by simp [hs1], by simp [hnew]⟩
  have hne : (getWhere user_id s1).isEmpty = false := by
    cases hE : (getWhere user_id s1).isEmpty
    · rfl
    · rw [List.isEmpty_iff] at hE
      rw [hE] at hmem
      exact absurd hmem (List.not_mem_nil newE)
  rw [getWhere_prune cfg now user_id s1 hne]
  exact length_filter_pruneDeleteIds_le cfg now (getWhere user_id s1)

theorem mem_prune_iff (cfg : Cfg) (now : ℤ) (uid : String) (s : Store)
    (hne : (getWhere uid s).isEmpty = false) (e : Entry) :
    e ∈ prune_user_memory cfg now uid s ↔
      e ∈ s ∧ e.id ∉ pruneDeleteIds cfg now (getWhere uid s) := by
  rw [prune_user_memory]
  simp only [hne, Bool.false_eq_true, if_false]
  rw [foldl_deleteId, List.mem_filter]
  simp

theorem expiredIds_subset_pruneDeleteIds (cfg : Cfg) (now : ℤ) (items : List Entry)
    {mid : String} (hm : mid ∈ expiredIds cfg now items) :
    mid ∈ pruneDeleteIds cfg now items := by
  simp only [pruneDeleteIds]
  split_ifs
  · exact List.mem_append_left _ hm
  · exact hm

theorem isTimeExpired_shortterm {cfg : Cfg} {now : ℤ} {m : MemMeta}
    (ht : m.memory_type = "shortterm") (ha : now - m.created_at > cfg.short_term_expire_sec) :
    isTimeExpired cfg now m = true := by
  simp [isTimeExpired, ht, ha]

theorem isTimeExpired_history {cfg : Cfg} {now : ℤ} {m : MemMeta}
    (ht : m.memory_type = "history") (ha : now - m.created_at > cfg.history_expire_sec) :
    isTimeExpired cfg now m = true := by
  simp [isTimeExpired, ht, ha]

theorem isTimeExpired_durable {cfg : Cfg} {now : ℤ} {m : MemMeta}
    (ht : m.memory_type = "longterm" ∨ m.memory_type = "profile") :
    isTimeExpired cfg now m = false := by
  rcases ht with h | h <;> simp [isTimeExpired, h]

theorem id_inj_of_nodup {l : List Entry} (h : (l.map (·.id)).Nodup) {a b : Entry}
    (ha : a ∈ l) (hb : b ∈ l) (hab : a.id = b.id) : a = b :=
  List.inj_on_of_nodup_map h ha hb hab

theorem getWhere_map_id_nodup (uid : String) {s : Store}
    (h : (s.map (·.id)).Nodup) : ((getWhere uid s).map (·.id)).Nodup :=
  h.sublist ((List.filter_sublist s).map (·.id))

theorem mem_getWhere {uid : String} {s : Store} {e : Entry} :
    e ∈ getWhere uid s ↔ e ∈ s ∧ e.meta.user_id = uid := by
  simp [getWhere, List.mem_filter]

/-- C4, typed expiry: in the pruning pass run on a store, every shortterm
record of the pruned owner whose age exceeds short_term_expire_sec and
every history record whose age exceeds history_expire_sec is deleted,
while a longterm or profile record is never marked by the age rule, and
survives the pass outright (under distinct ids) whenever the pass does not
also evict by capacity. -/
theorem prune_expires_by_type (cfg : Cfg) (now : ℤ) (uid : String) (s : Store) (e : Entry)
    (he : e ∈ s) (hu : e.meta.user_id = uid) :
    (e.meta.memory_type = "shortterm" → now - e.meta.created_at > cfg.short_term_expire_sec →
      e ∉ prune_user_memory cfg now uid s)
    ∧ (e.meta.memory_type = "history" → now - e.meta.created_at > cfg.history_expire_sec →
      e ∉ prune_user_memory cfg now uid s)
    ∧ ((e.meta.memory_type = "longterm" ∨ e.meta.memory_type = "profile") →
        (s.map (·.id)).Nodup →
        e.id ∉ expiredIds cfg now (getWhere uid s)
        ∧ ((getWhere uid s).length - (expiredIds cfg now (getWhere uid s)).length
              ≤ cfg.max_items_per_user →
            e ∈ prune_user_memory cfg now uid s)) := by
  have hmem : e ∈ getWhere uid s := mem_getWhere.mpr ⟨he, hu⟩
  have hne : (getWhere uid s).isEmpty = false := by
    cases hE : (getWhere uid s).isEmpty
    · rfl
    · rw [List.isEmpty_iff] at hE
      rw [hE] at hmem
      exact absurd hmem (List.not_mem_nil e)
  have hdel : isTimeExpired cfg now e.meta = true → e ∉ prune_user_memory cfg now uid s := by
    intro hexp hin
    have hid : e.id ∈ expiredIds cfg now (getWhere uid s) :=
      mem_expiredIds.mpr ⟨e, hmem, hexp, rfl⟩
    exact ((mem_prune_iff cfg now uid s hne e).mp hin).2
      (expiredIds_subset_pruneDeleteIds cfg now _ hid)
  refine ⟨fun ht ha => hdel (isTimeExpired_shortterm ht ha),
    fun ht ha => hdel (isTimeExpired_history ht ha), fun ht hnd => ?_⟩
  have hnotexp : isTimeExpired cfg now e.meta = false := isTimeExpired_durable ht
  have hnid : e.id ∉ expiredIds cfg now (getWhere uid s) := by
    intro hid
    obtain ⟨f, hf, hfexp, hfid⟩ := mem_expiredIds.mp hid
    have hfe : f = e := id_inj_of_nodup (getWhere_map_id_nodup uid hnd) hf hmem hfid
    rw [hfe, hnotexp] at hfexp
    exact Bool.false_ne_true hfexp
  refine ⟨hnid, fun hguard => ?_⟩
  refine (mem_prune_iff cfg now uid s hne e).mpr ⟨he, ?_⟩
  have hDd : pruneDeleteIds cfg now (getWhere uid s) = expiredIds cfg now (getWhere uid s) := by
    simp only [pruneDeleteIds]
    rw [if_neg (by omega)]
  rw [hDd]
  exact hnid

theorem mem_expiredIds_iff_of_nodup {cfg : Cfg} {now : ℤ} {items : List Entry}
    (hnd : (items.map (·.id)).Nodup) {e : Entry} (he : e ∈ items) :
    e.id ∈ expiredIds cfg now items ↔ isTimeExpired cfg now e.meta = true := by
  constructor
  · intro hid
    obtain ⟨f, hf, hfexp, hfid⟩ := mem_expiredIds.mp hid
    rwa [id_inj_of_nodup hnd hf he hfid] at hfexp
  · intro hexp
    exact mem_expiredIds.mpr ⟨e, he, hexp, rfl⟩

/-- Under distinct ids, rule 1 deletes exactly the expired records, so the
survivor count plus the mark count is the item count. -/
theorem length_pruneSurvivors_eq (cfg : Cfg) (now : ℤ) {items : List Entry}
    (hnd : (items.map (·.id)).Nodup) :
    (pruneSurvivors cfg now items).length + (expiredIds cfg now items).length
      = items.length := by
  rw [length_expiredIds, pruneSurvivors, ← List.countP_eq_length_filter]
  have hc : items.countP (fun e => decide (e.id ∉ expiredIds cfg now items))
      = items.countP (fun a => ¬ isTimeExpired cfg now a.meta) := by
    refine List.countP_congr fun e he => ?_
    simp only [decide_eq_true_eq]
    exact not_congr (mem_expiredIds_iff_of_nodup hnd he)
  rw [hc]
  have hsplit := List.length_eq_countP_add_countP
    (fun e => isTimeExpired cfg now e.meta) items
  simp only [] at hsplit
  omega

theorem pruneSurvivors_map_id_nodup {cfg : Cfg} {now : ℤ} {items : List Entry}
    (hnd : (items.map (·.id)).Nodup) :
    ((pruneSurvivors cfg now items).map (·.id)).Nodup :=
  hnd.sublist ((List.filter_sublist items).map (·.id))

/-- Under distinct ids, a pruning pass that evicts by capacity leaves the
owner with exactly max_items_per_user records. -/
theorem length_filter_pruneDeleteIds_eq (cfg : Cfg) (now : ℤ) (items : List Entry)
    (hnd : (items.map (·.id)).Nodup)
    (hg : cfg.max_items_per_user < (pruneSurvivors cfg now items).length) :
    (items.filter (fun e => e.id ∉ pruneDeleteIds cfg now items)).length
      = cfg.max_items_per_user := by
  have hlen := length_pruneSurvivors_eq cfg now hnd
  have hguard : items.length - (expiredIds cfg now items).length
      > cfg.max_items_per_user := by omega
  have hDd : pruneDeleteIds cfg now items
      = expiredIds cfg now items ++ capacityEvictIds cfg now items := by
    simp only [pruneDeleteIds]
    rw [if_pos hguard]
  rw [hDd]
  have hsplitfilter : items.filter
        (fun e => e.id ∉ expiredIds cfg now items ++ capacityEvictIds cfg now items)
      = (pruneSurvivors cfg now items).filter
          (fun e => e.id ∉ capacityEvictIds cfg now items) := by
    rw [pruneSurvivors, List.filter_filter]
    refine List.filter_congr fun e _ => ?_
    by_cases h1 : e.id ∈ expiredIds cfg now items <;>
      by_cases h2 : e.id ∈ capacityEvictIds cfg now items <;>
        simp [h1, h2]
  rw [hsplitfilter, ← List.countP_eq_length_filter,
    ← List.Perm.countP_eq _ (List.perm_insertionSort impLE (pruneSurvivors cfg now items))]
  set sorted := (pruneSurvivors cfg now items).insertionSort impLE with hsorted
  set k := sorted.length - cfg.max_items_per_user with hk
  have hcap2 : capacityEvictIds cfg now items = (sorted.take k).map (·.id) := rfl
  rw [hcap2]
  have hsortnd : (sorted.map (·.id)).Nodup := by
    refine (List.Perm.nodup_iff ((List.perm_insertionSort impLE _).map _)).mpr ?_
    exact pruneSurvivors_map_id_nodup hnd
  set T := sorted.take k with hT
  set Dr := sorted.drop k with hDr
  have hTD : sorted = T ++ Dr := (List.take_append_drop k sorted).symm
  rw [hTD, List.countP_append]
  have hzero : T.countP (fun e => decide (e.id ∉ T.map (·.id))) = 0 := by
    rw [List.countP_eq_zero]
    intro e he
    simp only [decide_eq_true_eq, Decidable.not_not]
    exact List.mem_map.mpr ⟨e, he, rfl⟩
  have hsnd : sorted.Nodup := hsortnd.of_map
  have hdisj : T.Disjoint Dr := by
    rw [hTD] at hsnd
    exact (List.nodup_append.mp hsnd).2.2
  have hfull : Dr.countP (fun e => decide (e.id ∉ T.map (·.id))) = Dr.length := by
    rw [List.countP_eq_length]
    intro e he
    simp only [decide_eq_true_eq]
    intro hid
    obtain ⟨f, hf, hfid⟩ := List.mem_map.mp hid
    have hfsort : f ∈ sorted := by rw [hTD]; exact List.mem_append_left _ hf
    have hesort : e ∈ sorted := by rw [hTD]; exact List.mem_append_right _ he
    have hfe : f = e := id_inj_of_nodup hsortnd hfsort hesort hfid
    exact hdisj (hfe ▸ hf) he
  have hDlen : Dr.length = sorted.length - k := by rw [hDr, List.length_drop]
  have hslen : sorted.length = (pruneSurvivors cfg now items).length :=
    (List.perm_insertionSort impLE _).length_eq
  omega

/-- Under distinct ids and tie-free importance, a capacity-evicted survivor
is strictly less important than every retained survivor. -/
theorem pruneDeleteIds_capacity_monotone (cfg : Cfg) (now : ℤ) (items : List Entry)
    (hnd : (items.map (·.id)).Nodup)
    (htie : (pruneSurvivors cfg now items).Pairwise
      (fun a b => a.meta.importance ≠ b.meta.importance))
    (hg : cfg.max_items_per_user < (pruneSurvivors cfg now items).length)
    {e f : Entry} (he : e ∈ pruneSurvivors cfg now items)
    (hf : f ∈ pruneSurvivors cfg now items)
    (hedel : e.id ∈ pruneDeleteIds cfg now items)
    (hfkeep : f.id ∉ pruneDeleteIds cfg now items) :
    e.meta.importance < f.meta.importance := by
  have hlen := length_pruneSurvivors_eq cfg now hnd
  have hguard : items.length - (expiredIds cfg now items).length
      > cfg.max_items_per_user := by omega
  have hDd : pruneDeleteIds cfg now items
      = expiredIds cfg now items ++ capacityEvictIds cfg now items := by
    simp only [pruneDeleteIds]
    rw [if_pos hguard]
  rw [hDd] at hedel hfkeep
  have heD1 : e.id ∉ expiredIds cfg now items := by
    have := (List.mem_filter.mp he).2
    simpa using this
  have heD2 : e.id ∈ capacityEvictIds cfg now items :=
    (List.mem_append.mp hedel).resolve_left heD1
  have hfD2 : f.id ∉ capacityEvictIds cfg now items :=
    fun hx => hfkeep (List.mem_append_right _ hx)
  set sorted := (pruneSurvivors cfg now items).insertionSort impLE with hsorted
  set k := sorted.length - cfg.max_items_per_user with hk
  have hcap2 : capacityEvictIds cfg now items = (sorted.take k).map (·.id) := rfl
  rw [hcap2] at heD2 hfD2
  have hsortnd : (sorted.map (·.id)).Nodup := by
    refine (List.Perm.nodup_iff ((List.perm_insertionSort impLE _).map _)).mpr ?_
    exact pruneSurvivors_map_id_nodup hnd
  have hsnd : sorted.Nodup := hsortnd.of_map
  have hesort : e ∈ sorted := ((List.perm_insertionSort impLE _).mem_iff).mpr he
  have hfsort : f ∈ sorted := ((List.perm_insertionSort impLE _).mem_iff).mpr hf
  have heT : e ∈ sorted.take k := by
    obtain ⟨g, hgT, hgid⟩ := List.mem_map.mp heD2
    have hgsort : g ∈ sorted := List.mem_of_mem_take hgT
    rwa [id_inj_of_nodup hsortnd hgsort hesort hgid] at hgT
  have hfDr : f ∈ sorted.drop k := by
    have : f ∈ sorted.take k ++ sorted.drop k := by
      rw [List.take_append_drop]
      exact hfsort
    rcases List.mem_append.mp this with hx | hx
    · exact absurd (List.mem_map.mpr ⟨f, hx, rfl⟩) hfD2
    · exact hx
  have hsortedpw : List.Sorted impLE sorted := List.sorted_insertionSort impLE _
  have hpw : List.Pairwise impLE (sorted.take k ++ sorted.drop k) := by
    rw [List.take_append_drop]
    exact hsortedpw
  have hle : e.meta.importance ≤ f.meta.importance :=
    (List.pairwise_append.mp hpw).2.2 e heT f hfDr
  have hnef : e ≠ f := by
    intro hx
    have hnodupTD : (sorted.take k ++ sorted.drop k).Nodup := by
      rw [List.take_append_drop]
      exact hsnd
    exact (List.nodup_append.mp hnodupTD).2.2 (hx ▸ heT) hfDr
  have hne_imp : e.meta.importance ≠ f.meta.importance :=
    htie.forall (fun {a b} hab => Ne.symm hab) he hf hnef
  exact lt_of_le_of_ne hle hne_imp

/-- C5, capacity eviction is monotone in importance: when a pruning pass
evicts by capacity (the rule-1 survivors of the owner outnumber
max_items_per_user) and the survivors carry pairwise distinct importance
values and ids are distinct, the pass leaves exactly max_items_per_user
records for the owner, and no survivor is evicted while a strictly
lower-importance survivor of the same owner is retained: every evicted
survivor has strictly smaller importance than every retained one. -/
theorem prune_capacity_exact (cfg : Cfg) (now : ℤ) (uid : String) (s : Store)
    (hnd : (s.map (·.id)).Nodup)
    (htie : (pruneSurvivors cfg now (getWhere uid s)).Pairwise
      (fun a b => a.meta.importance ≠ b.meta.importance))
    (hcap : cfg.max_items_per_user < (pruneSurvivors cfg now (getWhere uid s)).length) :
    (getWhere uid (prune_user_memory cfg now uid s)).length = cfg.max_items_per_user
    ∧ ∀ e ∈ pruneSurvivors cfg now (getWhere uid s),
        ∀ f ∈ pruneSurvivors cfg now (getWhere uid s),
          e ∉ prune_user_memory cfg now uid s →
          f ∈ prune_user_memory cfg now uid s →
          e.meta.importance < f.meta.importance := by
  have hndI := getWhere_map_id_nodup uid hnd
  have hne : (getWhere uid s).isEmpty = false := by
    cases hE : (getWhere uid s).isEmpty
    · rfl
    · rw [List.isEmpty_iff] at hE
      rw [pruneSurvivors, hE] at hcap
      simp at hcap
  constructor
  · rw [getWhere_prune cfg now uid s hne]
    exact length_filter_pruneDeleteIds_eq cfg now _ hndI hcap
  · intro e he f hf hedel hfkeep
    have hes : e ∈ s := (mem_getWhere.mp (List.mem_of_mem_filter he)).1
    have hedelid : e.id ∈ pruneDeleteIds cfg now (getWhere uid s) := by
      by_contra hx
      exact hedel ((mem_prune_iff cfg now uid s hne e).mpr ⟨hes, hx⟩)
    have hfkeepid : f.id ∉ pruneDeleteIds cfg now (getWhere uid s) :=
      ((mem_prune_iff cfg now uid s hne f).mp hfkeep).2
    exact pruneDeleteIds_capacity_monotone cfg now _ hndI htie hcap he hf hedelid hfkeepid

/-- Witness for C5: with a cap of one, two never-expiring records of
distinct importance trigger capacity eviction, one record remains and the
evicted/retained pair is ordered by importance. -/
theorem prune_capacity_exact_witness :
    ((([⟨"a", "d1", ⟨"u", "longterm", [], 0, 0, 0⟩⟩,
        ⟨"b", "d2", ⟨"u", "longterm", [], 1, 0, 0⟩⟩] : Store).map (·.id)).Nodup)
    ∧ (pruneSurvivors ⟨1, 1800, 600⟩ 0
        (getWhere "u" [⟨"a", "d1", ⟨"u", "longterm", [], 0, 0, 0⟩⟩,
          ⟨"b", "d2", ⟨"u", "longterm", [], 1, 0, 0⟩⟩])).Pairwise
        (fun a b => a.meta.importance ≠ b.meta.importance)
    ∧ (1 : ℕ) < (pruneSurvivors ⟨1, 1800, 600⟩ 0
        (getWhere "u" [⟨"a", "d1", ⟨"u", "longterm", [], 0, 0, 0⟩⟩,
          ⟨"b", "d2", ⟨"u", "longterm", [], 1, 0, 0⟩⟩])).length
    ∧ ((getWhere "u" (prune_user_memory ⟨1, 1800, 600⟩ 0 "u"
          [⟨"a", "d1", ⟨"u", "longterm", [], 0, 0, 0⟩⟩,
            ⟨"b", "d2", ⟨"u", "longterm", [], 1, 0, 0⟩⟩])).length = 1
        ∧ ∀ e ∈ pruneSurvivors ⟨1, 1800, 600⟩ 0
              (getWhere "u" [⟨"a", "d1", ⟨"u", "longterm", [], 0, 0, 0⟩⟩,
                ⟨"b", "d2", ⟨"u", "longterm", [], 1, 0, 0⟩⟩]),
            ∀ f ∈ pruneSurvivors ⟨1, 1800, 600⟩ 0
              (getWhere "u" [⟨"a", "d1", ⟨"u", "longterm", [], 0, 0, 0⟩⟩,
                ⟨"b", "d2", ⟨"u", "longterm", [], 1, 0, 0⟩⟩]),
              e ∉ prune_user_memory ⟨1, 1800, 600⟩ 0 "u"
                  [⟨"a", "d1", ⟨"u", "longterm", [], 0, 0, 0⟩⟩,
                    ⟨"b", "d2", ⟨"u", "longterm", [], 1, 0, 0⟩⟩] →
              f ∈ prune_user_memory ⟨1, 1800, 600⟩ 0 "u"
                  [⟨"a", "d1", ⟨"u", "longterm", [], 0, 0, 0⟩⟩,
                    ⟨"b", "d2", ⟨"u", "longterm", [], 1, 0, 0⟩⟩] →
              e.meta.importance < f.meta.importance) :=
  ⟨by decide, by decide, by decide,
    prune_capacity_exact ⟨1, 1800, 600⟩ 0 "u"
      [⟨"a", "d1", ⟨"u", "longterm", [], 0, 0, 0⟩⟩,
        ⟨"b", "d2", ⟨"u", "longterm", [], 1, 0, 0⟩⟩]
      (by decide) (by decide) (by decide)⟩

/-- Witness for C4: with the default configuration, a 5000-second-old
shortterm record of owner u is gone from the store after a pruning pass at
time 5000. -/
theorem prune_expires_by_type_witness :
    (⟨"a", "x", ⟨"u", "shortterm", [], 3/10, 0, 0⟩⟩ : Entry)
        ∈ ([⟨"a", "x", ⟨"u", "shortterm", [], 3/10, 0, 0⟩⟩] : Store)
      ∧ (⟨"a", "x", ⟨"u", "shortterm", [], 3/10, 0, 0⟩⟩ : Entry).meta.user_id = "u"
      ∧ (⟨"a", "x", ⟨"u", "shortterm", [], 3/10, 0, 0⟩⟩ : Entry)
          ∉ prune_user_memory ⟨500, 1800, 600⟩ 5000 "u"
              [⟨"a", "x", ⟨"u", "shortterm", [], 3/10, 0, 0⟩⟩] :=
  ⟨by simp, rfl,
    (prune_expires_by_type ⟨500, 1800, 600⟩ 5000 "u"
        [⟨"a", "x", ⟨"u", "shortterm", [], 3/10, 0, 0⟩⟩]
        ⟨"a", "x", ⟨"u", "shortterm", [], 3/10, 0, 0⟩⟩
        (by simp) rfl).1 rfl (by decide)⟩

/-- C9, the just-added record is a pruning candidate of its own add: with a
cap of one and an owner already holding one non-expiring record of strictly
higher importance, add_memory writes the new low-importance record, the
pruning pass of the same call evicts it again, and the call still returns
its id, which then refers to no stored record. -/
theorem add_memory_self_eviction :
    (add_memory (fun _ => 7) ⟨1, 1800, 600⟩ 5 "u" "new" "longterm" [] 0
        [⟨"u_0_0", "old", ⟨"u", "longterm", [], 1, 0, 0⟩⟩]).1 = "u_5_7"
    ∧ (add_memory (fun _ => 7) ⟨1, 1800, 600⟩ 5 "u" "new" "longterm" [] 0
        [⟨"u_0_0", "old", ⟨"u", "longterm", [], 1, 0, 0⟩⟩]).2
      = [⟨"u_0_0", "old", ⟨"u", "longterm", [], 1, 0, 0⟩⟩]
    ∧ "u_5_7" ∉ ((add_memory (fun _ => 7) ⟨1, 1800, 600⟩ 5 "u" "new" "longterm" [] 0
        [⟨"u_0_0", "old", ⟨"u", "longterm", [], 1, 0, 0⟩⟩]).2).map (·.id) := by
  refine ⟨by decide, by decide, by decide⟩

theorem processCands_fst (now : ℤ) (cs : List Candidate) (s : Store) :
    (processCands now cs s).1 = cs.map (procRecord now) := by
  induction cs generalizing s with
  | nil => rfl
  | cons c cs ih => simp [processCands, ih]

theorem processCands_snd (now : ℤ) (cs : List Candidate) (s : Store) :
    (processCands now cs s).2
      = cs.foldl (fun st c => updateMeta c.id { c.meta with last_access := now } st) s := by
  induction cs generalizing s with
  | nil => rfl
  | cons c cs ih => simp [processCands, ih]

theorem retrieve_fst_eq (now : ℤ) (uid : String) (cands : List Candidate)
    (limit : ℕ) (s : Store) :
    (retrieve_relevant_memories now uid cands limit s).1
      = (sortDesc (cands.map (procRecord now))).take limit := by
  rw [retrieve_relevant_memories]
  cases cands with
  | nil => simp [sortDesc]
  | cons a cs =>
    simp only [List.isEmpty_cons, Bool.false_eq_true, if_false]
    rw [processCands_fst]

theorem retrieve_snd_eq (now : ℤ) (uid : String) (cands : List Candidate)
    (limit : ℕ) (s : Store) :
    (retrieve_relevant_memories now uid cands limit s).2
      = cands.foldl (fun st c => updateMeta c.id { c.meta with last_access := now } st) s := by
  rw [retrieve_relevant_memories]
  cases cands with
  | nil => simp
  | cons a cs =>
    simp only [List.isEmpty_cons, Bool.false_eq_true, if_false]
    rw [processCands_snd]

/-- Inserting a record into a sorted run preserves, score class by score
class, the records with any fixed score and their order: the skipped
records all have strictly greater score. -/
theorem filter_score_orderedInsert (x : RetRecord) (l : List RetRecord) (q : ℚ) :
    (l.orderedInsert (fun a b => b.score ≤ a.score) x).filter (fun r => r.score = q)
      = if x.score = q then x :: l.filter (fun r => r.score = q)
        else l.filter (fun r => r.score = q) := by
  induction l with
  | nil => by_cases hx : x.score = q <;> simp [List.orderedInsert, hx]
  | cons b l ih =>
    simp only [List.orderedInsert]
    by_cases hbx : b.score ≤ x.score
    · rw [if_pos hbx]
      by_cases hx : x.score = q <;> simp [List.filter_cons, hx]
    · rw [if_neg hbx]
      by_cases hx : x.score = q
      · have hbq : ¬(b.score = q) := by
          intro h
          exact hbx (le_of_eq (h.trans hx.symm))
        simp [List.filter_cons, hbq, ih, hx]
      · simp [List.filter_cons, ih, hx]

/-- Stability of the descending sort of retrieve_relevant_memories: within
every score class the sorted order is the incoming (index-return) order. -/
theorem filter_score_sortDesc (l : List RetRecord) (q : ℚ) :
    (sortDesc l).filter (fun r => r.score = q) = l.filter (fun r => r.score = q) := by
  induction l with
  | nil => rfl
  | cons a l ih =>
    show ((l.insertionSort (fun a b => b.score ≤ a.score)).orderedInsert
        (fun a b => b.score ≤ a.score) a).filter (fun r => r.score = q) = _
    rw [filter_score_orderedInsert]
    simp only [sortDesc] at ih
    by_cases ha : a.score = q <;> simp [List.filter_cons, ha, ih]

/-- C2, ranked retrieval: retrieve_relevant_memories returns at most limit
records, ordered by non-increasing weighted score with
weighted_score = 0.7 * (1 - cosine_distance)
+ 0.2 * (1 - min(1, (now - last_access) / 86400)) + 0.1 * importance;
the returned list is the top limit of a stable descending sort of the
processed candidates (a permutation preserving the index-return order
inside every score class), and at equal recency and importance a candidate
at cosine distance 0 scores strictly higher than one at distance 1. -/
theorem retrieve_ranking (now : ℤ) (uid : String) (cands : List Candidate)
    (limit : ℕ) (s : Store) :
    (retrieve_relevant_memories now uid cands limit s).1.length ≤ limit
    ∧ (retrieve_relevant_memories now uid cands limit s).1.Sorted
        (fun a b => b.score ≤ a.score)
    ∧ (retrieve_relevant_memories now uid cands limit s).1
        = (sortDesc (cands.map (procRecord now))).take limit
    ∧ List.Perm (sortDesc (cands.map (procRecord now))) (cands.map (procRecord now))
    ∧ (∀ q : ℚ, (sortDesc (cands.map (procRecord now))).filter (fun r => r.score = q)
        = (cands.map (procRecord now)).filter (fun r => r.score = q))
    ∧ (∀ r ∈ (retrieve_relevant_memories now uid cands limit s).1,
        ∃ c ∈ cands, r.id = c.id ∧
          r.score = 7/10 * (1 - c.dist)
            + 2/10 * (1 - min 1 (((now - c.meta.last_access : ℤ) : ℚ) / 86400))
            + 1/10 * c.meta.importance)
    ∧ (∀ c c2 : Candidate, c.meta.last_access = c2.meta.last_access →
        c.meta.importance = c2.meta.importance → c.dist = 0 → c2.dist = 1 →
        weightedScore now c2.meta c2.dist < weightedScore now c.meta c.dist) := by
  have hres := retrieve_fst_eq now uid cands limit s
  have hsorted : (sortDesc (cands.map (procRecord now))).Sorted
      (fun a b => b.score ≤ a.score) :=
    List.sorted_insertionSort _ _
  refine ⟨?_, ?_, hres, ?_, fun q => filter_score_sortDesc _ q, ?_, ?_⟩
  · rw [hres]
    exact (List.length_take _ _).le.trans (min_le_left _ _)
  · rw [hres]
    exact hsorted.sublist (List.take_sublist _ _)
  · exact List.perm_insertionSort _ _
  · intro r hr
    rw [hres] at hr
    have hmem : r ∈ sortDesc (cands.map (procRecord now)) := List.mem_of_mem_take hr
    have hmem2 : r ∈ cands.map (procRecord now) :=
      ((List.perm_insertionSort _ _).mem_iff).mp hmem
    obtain ⟨c, hc, rfl⟩ := List.mem_map.mp hmem2
    refine ⟨c, hc, rfl, ?_⟩
    show weightedScore now c.meta c.dist = _
    rw [weightedScore]
    ring
  · intro c c2 h1 h2 h3 h4
    rw [weightedScore, weightedScore, h1, h2, h3, h4]
    linarith

/-- C10, aliased metadata in the returned records: every record returned by
retrieve_relevant_memories carries metadata whose last_access equals the
retrieval time now (the same mutated metadata object that was persisted),
while its score was computed from the candidate's pre-bump last_access. -/
theorem retrieve_metadata_bump (now : ℤ) (uid : String) (cands : List Candidate)
    (limit : ℕ) (s : Store) :
    ∀ r ∈ (retrieve_relevant_memories now uid cands limit s).1,
      r.metadata.last_access = now
      ∧ ∃ c ∈ cands, r.id = c.id
          ∧ r.metadata = { c.meta with last_access := now }
          ∧ r.score = weightedScore now c.meta c.dist := by
  intro r hr
  rw [retrieve_fst_eq] at hr
  have hmem : r ∈ cands.map (procRecord now) :=
    ((List.perm_insertionSort _ _).mem_iff).mp (List.mem_of_mem_take hr)
  obtain ⟨c, hc, rfl⟩ := List.mem_map.mp hmem
  exact ⟨rfl, c, hc, rfl, rfl, rfl⟩

/-- Witness for C10: one candidate whose stored last_access is -5 is
retrieved at time 0; the returned record's metadata says last_access 0
while its score was computed from the old metadata. -/
theorem retrieve_metadata_bump_witness :
    procRecord 0 ⟨"a", "d", ⟨"u", "history", [], 0, -5, -5⟩, 0⟩
        ∈ (retrieve_relevant_memories 0 "u"
            [⟨"a", "d", ⟨"u", "history", [], 0, -5, -5⟩, 0⟩] 1
            [⟨"a", "d", ⟨"u", "history", [], 0, -5, -5⟩⟩]).1
    ∧ ((procRecord 0 ⟨"a", "d", ⟨"u", "history", [], 0, -5, -5⟩, 0⟩).metadata.last_access = 0
        ∧ ∃ c ∈ [(⟨"a", "d", ⟨"u", "history", [], 0, -5, -5⟩, 0⟩ : Candidate)],
            (procRecord 0 ⟨"a", "d", ⟨"u", "history", [], 0, -5, -5⟩, 0⟩).id = c.id
            ∧ (procRecord 0 ⟨"a", "d", ⟨"u", "history", [], 0, -5, -5⟩, 0⟩).metadata
                = { c.meta with last_access := 0 }
            ∧ (procRecord 0 ⟨"a", "d", ⟨"u", "history", [], 0, -5, -5⟩, 0⟩).score
                = weightedScore 0 c.meta c.dist) :=
  ⟨by simp [retrieve_relevant_memories, processCands, sortDesc],
    retrieve_metadata_bump 0 "u" [⟨"a", "d", ⟨"u", "history", [], 0, -5, -5⟩, 0⟩] 1
      [⟨"a", "d", ⟨"u", "history", [], 0, -5, -5⟩⟩]
      (procRecord 0 ⟨"a", "d", ⟨"u", "history", [], 0, -5, -5⟩, 0⟩)
      (by simp [retrieve_relevant_memories, processCands, sortDesc])⟩

/-- C6, the LRU bump is persisted for the whole candidate set: when the
candidates are rows of the store (distinct ids on both sides), the store
retrieve_relevant_memories leaves behind is the old store with last_access
set to now on exactly the candidate ids, and every other entry and every
other field untouched. -/
theorem retrieve_bumps_all_candidates (now : ℤ) (uid : String) (cands : List Candidate)
    (limit : ℕ) (s : Store)
    (hfrom : ∀ c ∈ cands, ∃ e ∈ s, e.id = c.id ∧ e.meta = c.meta)
    (hcnd : (cands.map (·.id)).Nodup)
    (hsnd : (s.map (·.id)).Nodup) :
    (retrieve_relevant_memories now uid cands limit s).2
      = s.map (fun e => if e.id ∈ cands.map (·.id)
          then { e with meta := { e.meta with last_access := now } } else e) := by
  rw [retrieve_snd_eq]
  induction cands generalizing s with
  | nil =>
    simp
  | cons c cs ih =>
    rw [List.map_cons, List.nodup_cons] at hcnd
    obtain ⟨hcid, hcnd2⟩ := hcnd
    have hids : (updateMeta c.id { c.meta with last_access := now } s).map (·.id)
        = s.map (·.id) := by
      rw [updateMeta, List.map_map]
      refine List.map_congr_left fun e _ => ?_
      by_cases h : e.id = c.id <;> simp [h]
    have hsnd2 : ((updateMeta c.id { c.meta with last_access := now } s).map (·.id)).Nodup := by
      rw [hids]; exact hsnd
    have hfrom2 : ∀ c2 ∈ cs, ∃ e ∈ updateMeta c.id { c.meta with last_access := now } s,
        e.id = c2.id ∧ e.meta = c2.meta := by
      intro c2 hc2
      obtain ⟨e, he, heid, hemeta⟩ := hfrom c2 (List.mem_cons_of_mem c hc2)
      have hne : e.id ≠ c.id := by
        rw [heid]
        intro hx
        exact hcid (hx ▸ List.mem_map.mpr ⟨c2, hc2, rfl⟩)
      exact ⟨e, mem_updateMeta_of_ne he hne, heid, hemeta⟩
    rw [List.foldl_cons, ih _ hfrom2 hcnd2 hsnd2]
    rw [updateMeta, List.map_map]
    refine List.map_congr_left fun e he => ?_
    simp only [Function.comp]
    by_cases hc : e.id = c.id
    · obtain ⟨e0, he0, he0id, he0meta⟩ := hfrom c (List.mem_cons_self c cs)
      have he0e : e0 = e := id_inj_of_nodup hsnd he0 he (he0id.trans hc.symm)
      have hmeta : c.meta = e.meta := by rw [← he0meta, he0e]
      simp [hc, hcid, hmeta, List.mem_cons]
    · by_cases hmem : e.id ∈ cs.map (·.id) <;>
        simp [hc, hmem, List.mem_cons]

/-- Witness for C6: retrieving with one candidate matching entry a leaves a
two-entry store with only entry a's last_access bumped to 9. -/
theorem retrieve_bumps_all_candidates_witness :
    (∀ c ∈ [(⟨"a", "d", ⟨"u", "history", [], 0, 0, 0⟩, 0⟩ : Candidate)],
        ∃ e ∈ ([⟨"a", "d", ⟨"u", "history", [], 0, 0, 0⟩⟩,
            ⟨"b", "d2", ⟨"u", "history", [], 0, 0, 0⟩⟩] : Store),
          e.id = c.id ∧ e.meta = c.meta)
    ∧ (([(⟨"a", "d", ⟨"u", "history", [], 0, 0, 0⟩, 0⟩ : Candidate)].map (·.id)).Nodup)
    ∧ ((([⟨"a", "d", ⟨"u", "history", [], 0, 0, 0⟩⟩,
          ⟨"b", "d2", ⟨"u", "history", [], 0, 0, 0⟩⟩] : Store).map (·.id)).Nodup)
    ∧ (retrieve_relevant_memories 9 "u"
          [⟨"a", "d", ⟨"u", "history", [], 0, 0, 0⟩, 0⟩] 5
          [⟨"a", "d", ⟨"u", "history", [], 0, 0, 0⟩⟩,
            ⟨"b", "d2", ⟨"u", "history", [], 0, 0, 0⟩⟩]).2
        = ([⟨"a", "d", ⟨"u", "history", [], 0, 0, 0⟩⟩,
            ⟨"b", "d2", ⟨"u", "history", [], 0, 0, 0⟩⟩] : Store).map
            (fun e => if e.id ∈ [(⟨"a", "d", ⟨"u", "history", [], 0, 0, 0⟩, 0⟩ : Candidate)].map (·.id)
              then { e with meta := { e.meta with last_access := 9 } } else e) :=
  ⟨by decide, by decide, by decide,
    retrieve_bumps_all_candidates 9 "u"
      [⟨"a", "d", ⟨"u", "history", [], 0, 0, 0⟩, 0⟩] 5
      [⟨"a", "d", ⟨"u", "history", [], 0, 0, 0⟩⟩,
        ⟨"b", "d2", ⟨"u", "history", [], 0, 0, 0⟩⟩]
      (by decide) (by decide) (by decide)⟩

end MemoryManagerV2

/-! ## Legacy store theorems -/

namespace MemoryManager

/-- C8, the legacy relevance rule: check_memory_relevance keeps a record iff
none of the following holds: (a) its age exceeds the fixed 30-day
MEMORY_EXPIRY_TIME, (b) its content contains either fixed
negative-sentiment marker, (c) its stored mood label differs from the label
passed in; and clean_up_memory discards exactly the records the check
rejects (with the label fixed to "idle"). -/
theorem check_memory_relevance_spec (nowT : ℚ) (m : Memory) (current_state : String) :
    Config.MEMORY_EXPIRY_TIME = 30 * 24 * 60 * 60
    ∧ (check_memory_relevance nowT m current_state = true ↔
        ¬(nowT - m.timestamp > (Config.MEMORY_EXPIRY_TIME : ℚ))
        ∧ ¬(strContains m.content "失望" ∨ strContains m.content "生气")
        ∧ m.state = current_state)
    ∧ (∀ mems : List Memory, ∀ mm ∈ mems,
        check_memory_relevance nowT mm "idle" = false →
          mm ∉ clean_up_memory nowT mems)
    ∧ (∀ mems : List Memory, ∀ mm ∈ mems,
        check_memory_relevance nowT mm "idle" = true →
          mm ∈ clean_up_memory nowT mems) := by
  refine ⟨rfl, ?_, ?_, ?_⟩
  · rw [check_memory_relevance]
    split_ifs with h1 h2 h3
    · simp only [Memory.is_expired, decide_eq_true_eq] at h1
      simp [h1]
    · simp [h2]
    · simp [h3]
    · simp only [Memory.is_expired, decide_eq_true_eq] at h1
      simp only [ne_eq, Decidable.not_not] at h3
      simp [h1, h2, h3]
  · intro mems mm hmm hrej
    simp [clean_up_memory, List.mem_filter, hrej]
  · intro mems mm hmm hkeep
    simp [clean_up_memory, List.mem_filter, hmm, hkeep]

end MemoryManager

/-! ## Wrapper theorems -/

namespace MemoryManagerWrapper

/-- C7, backend selection: re-evaluated on every call, _use_v2 routes to
legacy whenever force_v1 is set, else to advanced whenever force_v2 is set,
else to advanced exactly when the advanced backend is present; and the
force setters enforce this immediately. -/
theorem use_v2_selection (w : Wrapper) :
    (w.force_v1 = true → use_v2 w = false)
    ∧ (w.force_v1 = false → w.force_v2 = true → use_v2 w = true)
    ∧ (w.force_v1 = false → w.force_v2 = false → use_v2 w = w.v2.isSome)
    ∧ use_v2 (force_use_v1 w true) = false
    ∧ use_v2 (force_use_v2 w true) = true := by
  refine ⟨fun h => ?_, fun h1 h2 => ?_, fun h1 h2 => ?_, ?_, ?_⟩
  · simp [use_v2, h]
  · simp [use_v2, h1, h2]
  · simp [use_v2, h1, h2]
  · simp [use_v2, force_use_v1]
  · simp [use_v2, force_use_v2]

/-- C3, swallow-and-fall-through: the four wrapper operations are total
functions (no call escapes as an exception in this embedding); whenever the
advanced call is down (absent backend or a raised exception), the call
falls through to the legacy block, whose result is the legacy backend's own
result when that backend is present and succeeds; and when the advanced and
every legacy call are absent or failing, the caller observes the neutral
values: None for add, the empty sequence for retrieve, False for clear and
delete. -/
theorem wrapper_swallow_and_fallback (w : Wrapper) :
    (V2Down w (·.add_memory) → add_memory w = add_memory_v1 w)
    ∧ (∀ b v, w.v1 = some b → b.add_memory = some (Except.ok v) → add_memory_v1 w = v)
    ∧ (V2Down w (·.add_memory) → V1Down w (·.add_memory) → add_memory w = none)
    ∧ (V2Down w (·.retrieve_relevant_memories) →
        retrieve_relevant_memories w = retrieve_v1 w)
    ∧ (∀ b v, w.v1 = some b → b.retrieve_relevant_memories = some (Except.ok v) →
        retrieve_v1 w = v)
    ∧ (V2Down w (·.retrieve_relevant_memories) →
        V1Down w (·.retrieve_relevant_memories) → retrieve_relevant_memories w = [])
    ∧ (V2Down w (·.clear_user_memory) → clear_user_memory w = clear_v1 w)
    ∧ (∀ b v, w.v1 = some b → b.clear_user_memory = some (Except.ok v) → clear_v1 w = v)
    ∧ (V2Down w (·.clear_user_memory) → V1Down w (·.clear_user_memory) →
        clear_user_memory w = false)
    ∧ (V2DeleteDown w → delete_memory w = delete_v1 w)
    ∧ (∀ b v, w.v1 = some b → b.delete_memory = some (Except.ok v) → delete_v1 w = v)
    ∧ (V2DeleteDown w → V1Down w (·.delete_memory) → delete_memory w = false) := by
  have haddmod : V1Down w (·.add_memory) → add_memory_v1mod w = none := by
    intro hdown
    cases hm : w.v1_mod with
    | some mm =>
      rcases hdown.2 mm hm with hnone | ⟨err, herr⟩
      · simp [add_memory_v1mod, hm, hnone]
      · simp [add_memory_v1mod, hm, herr]
    | none => simp [add_memory_v1mod, hm]
  have hadd1 : V1Down w (·.add_memory) → add_memory_v1 w = none := by
    intro hdown
    cases hv : w.v1 with
    | some b =>
      rcases hdown.1 b hv with hnone | ⟨err, herr⟩
      · simp [add_memory_v1, hv, hnone, haddmod hdown]
      · simp [add_memory_v1, hv, herr]
    | none => simp [add_memory_v1, hv, haddmod hdown]
  have haddfall : V2Down w (·.add_memory) → add_memory w = add_memory_v1 w := by
    intro hdown
    rw [add_memory]
    split_ifs with hu
    · rcases hdown with hnone | ⟨b, err, hb, herr⟩
      · simp [hnone]
      · simp [hb, herr]
    · rfl
  have hretmod : V1Down w (·.retrieve_relevant_memories) → retrieve_v1mod w = [] := by
    intro hdown
    cases hm : w.v1_mod with
    | some mm =>
      rcases hdown.2 mm hm with hnone | ⟨err, herr⟩
      · simp [retrieve_v1mod, hm, hnone]
      · simp [retrieve_v1mod, hm, herr]
    | none => simp [retrieve_v1mod, hm]
  have hret1 : V1Down w (·.retrieve_relevant_memories) → retrieve_v1 w = [] := by
    intro hdown
    cases hv : w.v1 with
    | some b =>
      rcases hdown.1 b hv with hnone | ⟨err, herr⟩
      · simp [retrieve_v1, hv, hnone, hretmod hdown]
      · simp [retrieve_v1, hv, herr]
    | none => simp [retrieve_v1, hv, hretmod hdown]
  have hretfall : V2Down w (·.retrieve_relevant_memories) →
      retrieve_relevant_memories w = retrieve_v1 w := by
    intro hdown
    rw [retrieve_relevant_memories]
    split_ifs with hu
    · rcases hdown with hnone | ⟨b, err, hb, herr⟩
      · simp [hnone]
      · simp [hb, herr]
    · rfl
  have hclearmod : V1Down w (·.clear_user_memory) → clear_v1mod w = false := by
    intro hdown
    cases hm : w.v1_mod with
    | some mm =>
      rcases hdown.2 mm hm with hnone | ⟨err, herr⟩
      · simp [clear_v1mod, hm, hnone]
      · simp [clear_v1mod, hm, herr]
    | none => simp [clear_v1mod, hm]
  have hclear1 : V1Down w (·.clear_user_memory) → clear_v1 w = false := by
    intro hdown
    cases hv : w.v1 with
    | some b =>
      rcases hdown.1 b hv with hnone | ⟨err, herr⟩
      · simp [clear_v1, hv, hnone, hclearmod hdown]
      · simp [clear_v1, hv, herr]
    | none => simp [clear_v1, hv, hclearmod hdown]
  have hclearfall : V2Down w (·.clear_user_memory) → clear_user_memory w = clear_v1 w := by
    intro hdown
    rw [clear_user_memory]
    split_ifs with hu
    · rcases hdown with hnone | ⟨b, err, hb, herr⟩
      · simp [hnone]
      · simp [hb, herr]
    · rfl
  have hdelmod : V1Down w (·.delete_memory) → delete_v1mod w = false := by
    intro hdown
    cases hm : w.v1_mod with
    | some mm =>
      rcases hdown.2 mm hm with hnone | ⟨err, herr⟩
      · simp [delete_v1mod, hm, hnone]
      · simp [delete_v1mod, hm, herr]
    | none => simp [delete_v1mod, hm]
  have hdel1 : V1Down w (·.delete_memory) → delete_v1 w = false := by
    intro hdown
    cases hv : w.v1 with
    | some b =>
      rcases hdown.1 b hv with hnone | ⟨err, herr⟩
      · simp [delete_v1, hv, hnone, hdelmod hdown]
      · simp [delete_v1, hv, herr]
    | none => simp [delete_v1, hv, hdelmod hdown]
  have hdelfall : V2DeleteDown w → delete_memory w = delete_v1 w := by
    intro hdown
    rw [delete_memory]
    split_ifs with hu
    · rcases hdown with hnone | ⟨b, hb, hbd⟩
      · simp [hnone]
      · rcases hbd with hnone2 | ⟨err, herr⟩
        · simp [hb, hnone2]
        · simp [hb, herr]
    · rfl
  refine ⟨haddfall, ?_, ?_, hretfall, ?_, ?_, hclearfall, ?_, ?_, hdelfall, ?_, ?_⟩
  · intro b v hb hok
    simp [add_memory_v1, hb, hok]
  · intro h2 h1
    rw [haddfall h2]
    exact hadd1 h1
  · intro b v hb hok
    simp [retrieve_v1, hb, hok]
  · intro h2 h1
    rw [hretfall h2]
    exact hret1 h1
  · intro b v hb hok
    simp [clear_v1, hb, hok]
  · intro h2 h1
    rw [hclearfall h2]
    exact hclear1 h1
  · intro b v hb hok
    simp [delete_v1, hb, hok]
  · intro h2 h1
    rw [hdelfall h2]
    exact hdel1 h1

end MemoryManagerWrapper

end SuperChizuko
